import Mathlib

/-!
Verification of the systemts collection library (src/src/collections and
src/src/events) against its specification.

The TypeScript sources are shallowly embedded: a JavaScript array backing a
container is a Lean `List`; the JavaScript `undefined` value produced by an
out-of-range array read (the "absent-value sentinel" of the spec) is `Option.none`;
fallible reads return `Option`.  Each definition carries a comment naming the
source function it embeds.
-/

/-- The JavaScript values an `until`/`fromLastUntil` action can return, as far as
the iteration protocol can distinguish them: iteration stops exactly on the strict
triple-equality test `action(...) === false` (`IEnumerable.ts`, lines 207 and 280),
so the model only needs `undefined`, booleans, and numbers (`0` is falsy but is not
`=== false`). -/
inductive JsVal : Type where
  | undef : JsVal
  | vBool : Bool → JsVal
  | vNum : Int → JsVal
deriving DecidableEq

/-- JavaScript indexed read `arr[i]` on an array holding `arr` (no holes):
`undefined` (`none`) for a negative or past-the-end index, the element otherwise. -/
def jsIndex {α : Type} (arr : List α) (i : Int) : Option α :=
  if 0 ≤ i then arr.get? i.toNat else none

/-- JavaScript `Array.prototype.indexOf` under strict equality: the lowest index
holding an element equal to `x`, and `-1` if there is none.  Embeds
`List.indexOf` (`List.ts` line 128) and the key lookup in `Dictionary.ts`. -/
def jsIndexOf {α : Type} [DecidableEq α] (arr : List α) (x : α) : Int :=
  match arr.findIdx? (fun y => decide (y = x)) with
  | some i => (i : Int)
  | none => -1

/-- JavaScript `arr.splice(i, 1)`: the start index is normalized (a negative
index counts from the end, clamped to 0; a too-large index is clamped to the
length); if the normalized start is in range the single element there is removed
and returned, otherwise nothing is removed and the removed-elements array is
empty (so taking its first element gives `undefined`).  Embeds
`List.removeAt` (`List.ts` line 214) and `Queue.dequeue` (`Queue.ts` line 59). -/
def jsSpliceOne {α : Type} (arr : List α) (i : Int) : Option α × List α :=
  let len := arr.length
  let s : Nat := if i < 0 then ((len : Int) + i).toNat else min i.toNat len
  if s < len then (arr.get? s, arr.take s ++ arr.drop (s + 1)) else (none, arr)

/-- JavaScript assignment `arr[i] = v` for a nonnegative index: in range it
replaces the element; past the end it extends the array to length `i + 1`,
the gap positions being holes that read back as `undefined` (`none`).
Embeds `List.put` (`List.ts` line 186) on an out-of-range index; the result
element type is `Option α` so the holes can be represented. -/
def jsArrayWrite {α : Type} (arr : List α) (i : Nat) (v : α) : List (Option α) :=
  if i < arr.length then (arr.map some).set i (some v)
  else arr.map some ++ List.replicate (i - arr.length) none ++ [some v]

/-- JavaScript indexed read on an array that may contain holes: a hole or an
out-of-range index both read as `undefined` (`none`). -/
def jsArrayRead {α : Type} (arr : List (Option α)) (i : Nat) : Option α :=
  (arr.get? i).getD none

/-- The element/index pairs of a backing array, indices starting at `i`;
the order in which a forward `for` loop over the array visits them. -/
def withIndexFrom {α : Type} (i : Nat) : List α → List (α × Nat)
  | [] => []
  | a :: rest => (a, i) :: withIndexFrom (i + 1) rest

/-- The trace of an early-exit iteration loop over a list of element/index
pairs: each pair is passed to `act`; the loop leaves after the first call that
returns exactly the JavaScript value `false` (the `=== false` test in
`IEnumerable.ts` lines 207 and 280); every other return value continues. -/
def visitUntil {α : Type} (act : α → Nat → JsVal) : List (α × Nat) → List (α × Nat)
  | [] => []
  | (a, i) :: rest =>
      (a, i) :: (if act a i = JsVal.vBool false then [] else visitUntil act rest)

/-- `ReadOnlyCollection.until` (`IEnumerable.ts` lines 278-284): iterate the
backing array forward from index 0, leaving after the first action call that
returns `=== false`.  The definition records the trace of `(element, index)`
arguments the action is invoked with, which is the observable behaviour of this
side-effecting loop. -/
def ReadOnlyCollection_untilTrace {α : Type} (arr : List α) (act : α → Nat → JsVal) :
    List (α × Nat) :=
  visitUntil act (withIndexFrom 0 arr)

/-- `ReadOnlyCollection.fromLastUntil` (`IEnumerable.ts` lines 205-211): the same
early-exit loop, but from index `length - 1` down to 0. -/
def ReadOnlyCollection_fromLastUntilTrace {α : Type} (arr : List α)
    (act : α → Nat → JsVal) : List (α × Nat) :=
  visitUntil act (withIndexFrom 0 arr).reverse

/-- `ReadOnlyCollection.each` (`IEnumerable.ts` line 170, `this.arr.forEach`):
visits every `(element, index)` pair in forward order, no early exit. -/
def ReadOnlyCollection_eachTrace {α : Type} (arr : List α) : List (α × Nat) :=
  withIndexFrom 0 arr

/-- `ReadOnlyCollection.first()` without predicate (`IEnumerable.ts` line 197):
`this.arr[0]`, which is `undefined` on an empty array. -/
def ReadOnlyCollection_first {α : Type} (arr : List α) : Option α :=
  arr.get? 0

/-- The two sequences observable after `ReadOnlyCollection.reverse` returns:
the content of the returned view and the content the original collection (and
any other holder of the same backing array) now observes. -/
structure ReverseOutcome (α : Type) : Type where
  result : List α
  original : List α

/-- `ReadOnlyCollection.reverse` (`IEnumerable.ts` line 254):
`new ReadOnlyCollection(this.arr.reverse())`.  JavaScript
`Array.prototype.reverse` reverses the array **in place** and returns the same
array object, so the returned view wraps the very array the original collection
keeps using: both now observe the reversed order. -/
def ReadOnlyCollection_reverse {α : Type} (arr : List α) : ReverseOutcome α :=
  { result := arr.reverse, original := arr.reverse }

/-- `List.reverse` (`List.ts` line 222): delegates to the read-only wrapper
constructed over the same backing array. -/
def List_reverse {α : Type} (container : List α) : ReverseOutcome α :=
  ReadOnlyCollection_reverse container

/-- `ReadOnlyCollection.zip` (`IEnumerable.ts` lines 301-304): the body is
`// TODO: Implement function` followed by `return undefined;` — the call
produces no sequence at all, modelled as `none`. -/
def ReadOnlyCollection_zip {α β γ : Type} (arr : List α) (other : List β)
    (resultSelector : Option α → Option β → γ) : Option (List γ) :=
  none

/-- `List.zip` (`List.ts` line 266): delegates to `ReadOnlyCollection.zip`. -/
def List_zip {α β γ : Type} (container : List α) (other : List β)
    (resultSelector : Option α → Option β → γ) : Option (List γ) :=
  ReadOnlyCollection_zip container other resultSelector

/-- `Queue.zip` (`Queue.ts` line 221): delegates to `ReadOnlyCollection.zip`. -/
def Queue_zip {α β γ : Type} (container : List α) (other : List β)
    (resultSelector : Option α → Option β → γ) : Option (List γ) :=
  ReadOnlyCollection_zip container other resultSelector

/-- Modelled from the spec: `ReadOnlyCollection.firstOrDefault(defaultValue)` is
absent from the sources (only the delegating callers `List.firstOrDefault`,
`List.ts` line 112, and `Queue.firstOrDefault`, `Queue.ts` line 110, are
present).  Spec §4.1: "like `first`, but returns the caller-supplied default
instead of the absent-value sentinel when nothing qualifies" — on an empty
sequence the default, otherwise the element at index 0. -/
def ReadOnlyCollection_firstOrDefault {α : Type} (arr : List α) (d : α) : α :=
  match arr with
  | [] => d
  | x :: _ => x

/-- Modelled from the spec: the predicate overload
`ReadOnlyCollection.firstOrDefault(predicate, defaultValue)`, absent from the
sources.  Spec §4.1: the first (lowest-index) element satisfying the predicate,
or the caller-supplied default when no element qualifies. -/
def ReadOnlyCollection_firstOrDefaultPred {α : Type} (arr : List α)
    (p : α → Bool) (d : α) : α :=
  (arr.find? p).getD d

/-- Modelled from the spec: `ReadOnlyCollection.lastOrDefault(defaultValue)`,
absent from the sources.  Spec §4.1: mirror image of the `first` family —
on an empty sequence the default, otherwise the element at the last index. -/
def ReadOnlyCollection_lastOrDefault {α : Type} (arr : List α) (d : α) : α :=
  match arr.getLast? with
  | some x => x
  | none => d

/-- `List.firstOrDefault` (`List.ts` line 112): delegates to the read-only
wrapper over the same backing array. -/
def List_firstOrDefault {α : Type} (container : List α) (d : α) : α :=
  ReadOnlyCollection_firstOrDefault container d

/-- `List.firstOrDefault(predicate, defaultValue)` (`List.ts` line 112). -/
def List_firstOrDefaultPred {α : Type} (container : List α) (p : α → Bool) (d : α) : α :=
  ReadOnlyCollection_firstOrDefaultPred container p d

/-- `List.lastOrDefault` (`List.ts` line 171). -/
def List_lastOrDefault {α : Type} (container : List α) (d : α) : α :=
  ReadOnlyCollection_lastOrDefault container d

/-- `Queue.firstOrDefault` (`Queue.ts` line 110). -/
def Queue_firstOrDefault {α : Type} (container : List α) (d : α) : α :=
  ReadOnlyCollection_firstOrDefault container d

/-- `Queue.firstOrDefault(predicate, defaultValue)` (`Queue.ts` line 110). -/
def Queue_firstOrDefaultPred {α : Type} (container : List α) (p : α → Bool) (d : α) : α :=
  ReadOnlyCollection_firstOrDefaultPred container p d

/-- `Queue.lastOrDefault` (`Queue.ts` line 161). -/
def Queue_lastOrDefault {α : Type} (container : List α) (d : α) : α :=
  ReadOnlyCollection_lastOrDefault container d

/-- `List.add` (`List.ts` line 22): `this.container.push(item)`. -/
def List_add {α : Type} (container : List α) (item : α) : List α :=
  container ++ [item]

/-- `List.at` (`List.ts` line 62): `return this.container[index];` — plain
JavaScript indexed read, `undefined` out of range, never a fault. -/
def List_at {α : Type} (container : List α) (index : Int) : Option α :=
  jsIndex container index

/-- `List.removeAt` (`List.ts` line 214):
`return this.container.splice(index, 1)[0];` — returns the removed element
(`undefined` when nothing was removed) together with the remaining container. -/
def List_removeAt {α : Type} (container : List α) (index : Int) : Option α × List α :=
  jsSpliceOne container index

/-- `List.removeAll` (`List.ts` lines 202-207): repeatedly look up the first
index of `item` with `indexOf` and `splice` it out, until `indexOf` reports
`-1`.  Splicing one element at the first index of `item` is exactly erasing the
first occurrence of `item`, and the loop runs while an occurrence remains. -/
def jsRemoveAll {α : Type} [DecidableEq α] (container : List α) (item : α) : List α :=
  if h : item ∈ container then jsRemoveAll (container.erase item) item else container
termination_by container.length
decreasing_by
  rw [List.length_erase_of_mem h]
  exact Nat.sub_lt (List.length_pos.mpr (List.ne_nil_of_mem h)) Nat.one_pos

/-- `Queue.enqueue` (`Queue.ts` line 75): `this.container.push(item)`. -/
def Queue_enqueue {α : Type} (container : List α) (item : α) : List α :=
  container ++ [item]

/-- `Queue.dequeue` (`Queue.ts` line 59):
`(this.length() > 0) ? this.container.splice(0, 1)[0] : this.container[0]` —
on a non-empty queue, splice out and return the head; on an empty queue, the
out-of-range read `container[0]` (`undefined`), with the container untouched. -/
def Queue_dequeue {α : Type} (container : List α) : Option α × List α :=
  if 0 < container.length then jsSpliceOne container 0 else (jsIndex container 0, container)

/-- `Queue.first()` without predicate (`Queue.ts` line 93): delegates to the
read-only wrapper, i.e. `this.arr[0]`. -/
def Queue_first {α : Type} (container : List α) : Option α :=
  ReadOnlyCollection_first container

/-- The state of a `Dictionary` (`Dictionary.ts` lines 23-24): two parallel
lists, `keys` and `values`. -/
structure Dict (κ ν : Type) : Type where
  keys : List κ
  values : List ν

/-- A freshly constructed dictionary: both backing lists empty. -/
def Dict_empty {κ ν : Type} : Dict κ ν :=
  { keys := [], values := [] }

/-- `Dictionary.length` (`Dictionary.ts` line 243): `this.keys.length()`. -/
def Dict_length {κ ν : Type} (d : Dict κ ν) : Nat :=
  d.keys.length

/-- `Dictionary.put` (`Dictionary.ts` lines 251-260): look the key up with
`indexOf`; if found, overwrite the value at that index in place
(`this.values.put(index, value)`, an in-range indexed write, i.e. `List.set`);
otherwise append the key and the value to the two lists. -/
def Dict_put {κ ν : Type} [DecidableEq κ] (d : Dict κ ν) (key : κ) (value : ν) :
    Dict κ ν :=
  let index := jsIndexOf d.keys key
  if -1 < index then { keys := d.keys, values := d.values.set index.toNat value }
  else { keys := d.keys ++ [key], values := d.values ++ [value] }

/-- `Dictionary.remove` (`Dictionary.ts` lines 267-276): look the key up with
`indexOf`; if found, `removeAt` that index from both lists and return the
removed value; otherwise return the absent-value sentinel and leave the
dictionary unchanged. -/
def Dict_remove {κ ν : Type} [DecidableEq κ] (d : Dict κ ν) (key : κ) :
    Option ν × Dict κ ν :=
  let index := jsIndexOf d.keys key
  if -1 < index then
    ((jsSpliceOne d.values index).1,
     { keys := (jsSpliceOne d.keys index).2, values := (jsSpliceOne d.values index).2 })
  else (none, d)

/-- `Dictionary.retrieve` (`Dictionary.ts` lines 283-291): look the key up with
`indexOf`; if found, `this.values.at(index)`; otherwise the absent-value
sentinel. -/
def Dict_retrieve {κ ν : Type} [DecidableEq κ] (d : Dict κ ν) (key : κ) : Option ν :=
  let index := jsIndexOf d.keys key
  if -1 < index then jsIndex d.values index else none

/-- `Dictionary.getKeys` (`Dictionary.ts` line 160): the key list, in entry
order. -/
def Dict_getKeys {κ ν : Type} (d : Dict κ ν) : List κ :=
  d.keys

/-- The key-value pair the dictionary synthesizes for index `i`
(`new KeyValuePair(this.keys.at(i), this.values.at(i))`), as an option so the
indices past the end read as the absent sentinel. -/
def Dict_entryAt {κ ν : Type} (d : Dict κ ν) (i : Nat) : Option (κ × ν) :=
  (d.keys.get? i).bind (fun k => (d.values.get? i).map (fun v => (k, v)))

/-- `Dictionary.zip` (`Dictionary.ts` lines 357-365): iterate `i` from 0 up to
`max(this.length(), collection.length())`; at each `i` call the selector with
the synthesized pair when `i < this.length()` and the undefined-pair sentinel
otherwise, with `arr2[i]` (which is `undefined` past the other sequence's end),
and with `i`; collect the results in order. -/
def Dict_zip {κ ν β γ : Type} (d : Dict κ ν) (other : List β)
    (resultSelector : Option (κ × ν) → Option β → Nat → γ) : List γ :=
  (List.range (max (Dict_length d) other.length)).map
    (fun i =>
      resultSelector (if i < Dict_length d then Dict_entryAt d i else none)
        (other.get? i) i)

/-- The dictionary states reachable from a fresh dictionary by any sequence of
`put` and `remove` calls (`Dictionary.ts` lines 251-276). -/
inductive DictReach {κ ν : Type} [DecidableEq κ] : Dict κ ν → Prop where
  | empty : DictReach Dict_empty
  | put (d : Dict κ ν) (k : κ) (v : ν) : DictReach d → DictReach (Dict_put d k v)
  | remove (d : Dict κ ν) (k : κ) : DictReach d → DictReach (Dict_remove d k).2

/-- `Event.addHandler` (`Event.ts` line 22): `this.handlerList.add(handler)`. -/
def Event_addHandler {η : Type} (handlerList : List η) (handler : η) : List η :=
  handlerList ++ [handler]

/-- `Event.removeHandler` (`Event.ts` line 31):
`this.handlerList.removeAll(handler)`. -/
def Event_removeHandler {η : Type} [DecidableEq η] (handlerList : List η)
    (handler : η) : List η :=
  jsRemoveAll handlerList handler

/-- `Event.invoke` (`Event.ts` line 47):
`this.handlerList.each((handler) => handler(sender, e))` — the sequence of
handlers called, in call order (one call per list entry, forward order). -/
def Event_invokeTrace {η : Type} (handlerList : List η) : List η :=
  (ReadOnlyCollection_eachTrace handlerList).map Prod.fst

/-- A heap of JavaScript arrays, for the aliasing claims: array references are
indices into the heap. -/
abbrev Heap (α : Type) : Type := List (List α)

/-- The array a reference designates (reads of an unallocated reference are
irrelevant; they default to the empty array). -/
def heapRead {α : Type} (h : Heap α) (r : Nat) : List α :=
  (h.get? r).getD []

/-- Replace the array a reference designates. -/
def heapWrite {α : Type} (h : Heap α) (r : Nat) (a : List α) : Heap α :=
  h.set r a

/-- A `List`/`Queue` object as far as storage identity is concerned: the
reference to its private backing array (`this.container`). -/
structure ListObj : Type where
  container : Nat

/-- `List.toArray` (`List.ts` line 239): `return this.container;` — the
reference to the live backing array itself, not a copy. -/
def List_toArray (l : ListObj) : Nat :=
  l.container

/-- `Queue.toArray` (`Queue.ts` line 194): `return this.container;`. -/
def Queue_toArray (q : ListObj) : Nat :=
  q.container

/-- `ReadOnlyCollection.toArray` (`IEnumerable.ts` line 271):
`return this.arr;` — the wrapped array reference itself. -/
def ReadOnlyCollection_toArray (arrRef : Nat) : Nat :=
  arrRef

/-- `List.add` acting on the heap: push onto the backing array in place. -/
def List_add_heap {α : Type} (h : Heap α) (l : ListObj) (x : α) : Heap α :=
  heapWrite h l.container (heapRead h l.container ++ [x])

/-- `Queue.enqueue` acting on the heap: push onto the backing array in place. -/
def Queue_enqueue_heap {α : Type} (h : Heap α) (q : ListObj) (x : α) : Heap α :=
  heapWrite h q.container (heapRead h q.container ++ [x])

/-- An in-range indexed write `a[i] = y` through an array reference. -/
def arraySet_heap {α : Type} (h : Heap α) (r : Nat) (i : Nat) (y : α) : Heap α :=
  heapWrite h r ((heapRead h r).set i y)

/-- `List.at` reading through the heap: `this.container[index]`. -/
def List_at_heap {α : Type} (h : Heap α) (l : ListObj) (i : Nat) : Option α :=
  (heapRead h l.container).get? i

/-! ## Helper lemmas -/

theorem findIdx?_some_bounds {α : Type} (p : α → Bool) :
    ∀ (l : List α) (j i : Nat), List.findIdx? p l j = some i → j ≤ i ∧ i < j + l.length := by
  intro l
  induction l with
  | nil => intro j i h; rw [List.findIdx?_nil] at h; cases h
  | cons a t ih =>
    intro j i h
    rw [List.findIdx?_cons] at h
    by_cases hp : p a = true
    · rw [if_pos hp] at h
      injection h with h
      subst h
      refine ⟨Nat.le_refl j, ?_⟩
      simp only [List.length_cons]
      omega
    · rw [if_neg hp] at h
      have hb := ih (j + 1) i h
      simp only [List.length_cons]
      omega

theorem findIdx?_some_lt {α : Type} (p : α → Bool) (l : List α) (i : Nat)
    (h : l.findIdx? p = some i) : i < l.length := by
  have := findIdx?_some_bounds p l 0 i h
  omega

theorem jsIndexOf_eq_some {α : Type} [DecidableEq α] (l : List α) (x : α) (i : Nat)
    (h : List.findIdx? (fun y => decide (y = x)) l 0 = some i) :
    jsIndexOf l x = (i : Int) := by
  unfold jsIndexOf
  rw [h]

theorem jsIndexOf_eq_none {α : Type} [DecidableEq α] (l : List α) (x : α)
    (h : List.findIdx? (fun y => decide (y = x)) l 0 = none) :
    jsIndexOf l x = -1 := by
  unfold jsIndexOf
  rw [h]

theorem jsIndexOf_not_found {α : Type} [DecidableEq α] (l : List α) (x : α)
    (h : ¬ (-1 : Int) < jsIndexOf l x) : x ∉ l := by
  intro hmem
  cases hfi : List.findIdx? (fun y => decide (y = x)) l 0 with
  | some i =>
    have hval := jsIndexOf_eq_some l x i hfi
    rw [hval] at h
    omega
  | none =>
    have hall := List.findIdx?_eq_none_iff.mp hfi x hmem
    simp at hall

theorem jsIndexOf_pos_some {α : Type} [DecidableEq α] (l : List α) (x : α)
    (h : (-1 : Int) < jsIndexOf l x) :
    ∃ i : Nat, List.findIdx? (fun y => decide (y = x)) l 0 = some i ∧
      jsIndexOf l x = (i : Int) ∧ i < l.length := by
  cases hfi : List.findIdx? (fun y => decide (y = x)) l 0 with
  | some i =>
    exact ⟨i, rfl, jsIndexOf_eq_some l x i hfi,
      findIdx?_some_lt _ l i hfi⟩
  | none =>
    have hval := jsIndexOf_eq_none l x hfi
    rw [hval] at h
    exact absurd h (lt_irrefl (-1))

theorem jsSpliceOne_inRange {α : Type} (l : List α) (i : Nat) (h : i < l.length) :
    jsSpliceOne l (i : Int) = (l.get? i, l.eraseIdx i) := by
  have h0 : ¬ ((i : Int) < 0) := by omega
  simp only [jsSpliceOne, if_neg h0, Int.toNat_natCast, Nat.min_eq_left (Nat.le_of_lt h),
    if_pos h, List.eraseIdx_eq_take_drop_succ]

theorem jsSpliceOne_pastEnd {α : Type} (l : List α) (i : Int)
    (h : (l.length : Int) ≤ i) : jsSpliceOne l i = (none, l) := by
  have h0 : ¬ (i < 0) := by omega
  have hge : l.length ≤ i.toNat := by omega
  simp only [jsSpliceOne, if_neg h0, Nat.min_eq_right hge, if_neg (Nat.lt_irrefl l.length)]

theorem visitUntil_eq_take_aux {α : Type} (act : α → Nat → JsVal) :
    ∀ (l : List (α × Nat)) (j : Nat),
      visitUntil act l =
        match List.findIdx? (fun p => decide (act p.1 p.2 = JsVal.vBool false)) l j with
        | none => l
        | some k => l.take (k - j + 1) := by
  intro l
  induction l with
  | nil => intro j; rw [List.findIdx?_nil]; rfl
  | cons p rest ih =>
    intro j
    obtain ⟨a, i⟩ := p
    rw [List.findIdx?_cons]
    by_cases hstop : act a i = JsVal.vBool false
    · simp [visitUntil, hstop, Nat.sub_self]
    · have hd : (decide (act a i = JsVal.vBool false)) = false := by simp [hstop]
      have hv : visitUntil act ((a, i) :: rest) = (a, i) :: visitUntil act rest := by
        simp [visitUntil, hstop]
      rw [hd]
      cases hfi : List.findIdx? (fun p => decide (act p.1 p.2 = JsVal.vBool false)) rest (j + 1) with
      | none =>
        have hrest := ih (j + 1)
        rw [hfi] at hrest
        simp [hv, hrest]
      | some k =>
        have hbk := findIdx?_some_bounds _ rest (j + 1) k hfi
        have hrest := ih (j + 1)
        rw [hfi] at hrest
        have harith : k - j + 1 = (k - (j + 1) + 1) + 1 := by omega
        simp only [Bool.false_eq_true, if_false, hv, hrest, harith, List.take_succ_cons]

theorem visitUntil_eq_take {α : Type} (act : α → Nat → JsVal) (l : List (α × Nat)) :
    visitUntil act l =
      match List.findIdx? (fun p => decide (act p.1 p.2 = JsVal.vBool false)) l 0 with
      | none => l
      | some k => l.take (k + 1) := by
  have h := visitUntil_eq_take_aux act l 0
  simpa using h

theorem withIndexFrom_map_snd {α : Type} :
    ∀ (l : List α) (i : Nat), (withIndexFrom i l).map Prod.snd = List.range' i l.length := by
  intro l
  induction l with
  | nil => intro i; rfl
  | cons a t ih =>
    intro i
    simp only [withIndexFrom, List.map_cons, List.length_cons, List.range'_succ]
    rw [ih (i + 1)]

theorem withIndexFrom_map_fst {α : Type} :
    ∀ (l : List α) (i : Nat), (withIndexFrom i l).map Prod.fst = l := by
  intro l
  induction l with
  | nil => intro i; rfl
  | cons a t ih =>
    intro i
    simp only [withIndexFrom, List.map_cons, ih (i + 1)]

theorem filter_ne_erase {α : Type} [DecidableEq α] (c : List α) (x : α) :
    (c.erase x).filter (fun y => decide (y ≠ x)) = c.filter (fun y => decide (y ≠ x)) := by
  induction c with
  | nil => rfl
  | cons a t ih =>
    rw [List.erase_cons]
    by_cases hax : a = x
    · rw [if_pos (by simp [hax])]
      subst hax
      rw [List.filter_cons_of_neg (by simp)]
    · rw [if_neg (by simp [hax])]
      rw [List.filter_cons_of_pos (by simp [hax]), List.filter_cons_of_pos (by simp [hax]), ih]

theorem jsRemoveAll_eq_filter {α : Type} [DecidableEq α] (x : α) :
    ∀ (c : List α), jsRemoveAll c x = c.filter (fun y => decide (y ≠ x)) := by
  suffices H : ∀ (n : Nat) (c : List α), c.length ≤ n →
      jsRemoveAll c x = c.filter (fun y => decide (y ≠ x)) by
    intro c
    exact H c.length c (Nat.le_refl _)
  intro n
  induction n with
  | zero =>
    intro c hc
    have hnil : c = [] := List.eq_nil_of_length_eq_zero (Nat.le_zero.mp hc)
    subst hnil
    rw [jsRemoveAll]
    simp
  | succ n ih =>
    intro c hc
    rw [jsRemoveAll]
    by_cases h : x ∈ c
    · rw [dif_pos h]
      have hlen : (c.erase x).length ≤ n := by
        rw [List.length_erase_of_mem h]
        have hpos : 0 < c.length := List.length_pos.mpr (List.ne_nil_of_mem h)
        omega
      rw [ih (c.erase x) hlen, filter_ne_erase]
    · rw [dif_neg h]
      refine ((List.filter_eq_self).mpr ?_).symm
      intro a ha
      simp only [decide_eq_true_eq]
      intro hax
      exact h (hax ▸ ha)

/-! ## Claim theorems -/

/-- C1: the spec's zip contract — result length is the longer of the two input
lengths, with the absent-value sentinel supplied for the missing operand and
the selector still invoked beyond the shorter sequence — is implemented by
`Dictionary.zip`, but `ReadOnlyCollection.zip` (to which `List.zip` and
`Queue.zip` delegate) is an unimplemented TODO that returns `undefined`
instead of any sequence: evaluating it at a concrete input yields no
sequence at all. -/
theorem claim_C1_zip_maxLength :
    List_zip ([1] : List Nat) ([10, 20] : List Nat) (fun a b => (a, b)) = none
    ∧ Queue_zip ([1] : List Nat) ([10, 20] : List Nat) (fun a b => (a, b)) = none
    ∧ ReadOnlyCollection_zip ([1] : List Nat) ([10, 20] : List Nat) (fun a b => (a, b)) = none
    ∧ (∀ (κ ν β γ : Type) (d : Dict κ ν) (other : List β)
        (f : Option (κ × ν) → Option β → Nat → γ),
        (Dict_zip d other f).length = max (Dict_length d) other.length
        ∧ ∀ i : Nat, (Dict_zip d other f).get? i =
            if i < max (Dict_length d) other.length
            then some (f (if i < Dict_length d then Dict_entryAt d i else none)
              (other.get? i) i)
            else none) := by
  refine ⟨rfl, rfl, rfl, ?_⟩
  intro κ ν β γ d other f
  constructor
  · simp [Dict_zip]
  · intro i
    by_cases hi : i < max (Dict_length d) other.length
    · rw [if_pos hi]
      unfold Dict_zip
      rw [List.get?_map, List.get?_range hi]
      rfl
    · rw [if_neg hi]
      unfold Dict_zip
      apply List.get?_len_le
      simp only [List.length_map, List.length_range]
      omega

/-- C2 counterexample: on the two-element list `[1, 2]`, after calling
`reverse()` the original collection no longer yields its original element `1`
at index 0 — `Array.prototype.reverse` flipped the shared backing array in
place. -/
theorem claim_C2_cex :
    ¬ ((List_reverse ([1, 2] : List Nat)).original.get? 0 = some 1) := by
  decide

/-- C2 (amended): `reverse()` returns a view whose elements are those of the
collection in reverse index order, but it reverses the shared backing array in
place, so afterwards the original collection (and any previously obtained view
over the same storage) also observes the reversed order, not the original
order.  Holds for the read-only wrapper and for `List`, which delegates. -/
theorem claim_C2_reverse_flips_shared {α : Type} (arr : List α) (i : Nat)
    (h : i < arr.length) :
    (ReadOnlyCollection_reverse arr).result.get? i = arr.get? (arr.length - 1 - i)
    ∧ (ReadOnlyCollection_reverse arr).original.get? i = arr.get? (arr.length - 1 - i)
    ∧ (List_reverse arr).result.get? i = arr.get? (arr.length - 1 - i)
    ∧ (List_reverse arr).original.get? i = arr.get? (arr.length - 1 - i) := by
  refine ⟨?_, ?_, ?_, ?_⟩ <;>
    simp only [ReadOnlyCollection_reverse, List_reverse] <;>
    exact List.get?_reverse h

/-- C2 witness: the amended reversal statement evaluated on `[1, 2]` at
index 0. -/
theorem claim_C2_witness :
    (ReadOnlyCollection_reverse ([1, 2] : List Nat)).result.get? 0
        = ([1, 2] : List Nat).get? (([1, 2] : List Nat).length - 1 - 0)
    ∧ (ReadOnlyCollection_reverse ([1, 2] : List Nat)).original.get? 0
        = ([1, 2] : List Nat).get? (([1, 2] : List Nat).length - 1 - 0)
    ∧ (List_reverse ([1, 2] : List Nat)).result.get? 0
        = ([1, 2] : List Nat).get? (([1, 2] : List Nat).length - 1 - 0)
    ∧ (List_reverse ([1, 2] : List Nat)).original.get? 0
        = ([1, 2] : List Nat).get? (([1, 2] : List Nat).length - 1 - 0) :=
  claim_C2_reverse_flips_shared ([1, 2] : List Nat) 0 (by decide)

/-- C3: on an empty `List` or `Queue`, `firstOrDefault(d)` and
`lastOrDefault(d)` return the caller-supplied default `d` (total functions,
never a fault), and the predicate overload returns `d` whenever no element
satisfies the predicate.  The deciding `ReadOnlyCollection` overloads are
absent from the sources and are modelled from the spec. -/
theorem claim_C3_orDefault :
    (∀ (α : Type) (d : α), List_firstOrDefault ([] : List α) d = d)
    ∧ (∀ (α : Type) (d : α), Queue_firstOrDefault ([] : List α) d = d)
    ∧ (∀ (α : Type) (d : α), List_lastOrDefault ([] : List α) d = d)
    ∧ (∀ (α : Type) (d : α), Queue_lastOrDefault ([] : List α) d = d)
    ∧ (∀ (α : Type) (arr : List α) (p : α → Bool) (d : α),
        (∀ x ∈ arr, p x = false) →
        List_firstOrDefaultPred arr p d = d ∧ Queue_firstOrDefaultPred arr p d = d) := by
  refine ⟨fun α d => rfl, fun α d => rfl, fun α d => rfl, fun α d => rfl, ?_⟩
  intro α arr p d hall
  have hf : arr.find? p = none := List.find?_eq_none.mpr (fun x hx => by simp [hall x hx])
  constructor <;>
    simp [List_firstOrDefaultPred, Queue_firstOrDefaultPred,
      ReadOnlyCollection_firstOrDefaultPred, hf]

/-- C3 witness: the default is returned on an empty list and under an
all-rejecting predicate, at concrete inputs. -/
theorem claim_C3_witness :
    List_firstOrDefault ([] : List Nat) 5 = 5
    ∧ (List_firstOrDefaultPred ([1, 2, 3] : List Nat) (fun _ => false) 7 = 7
       ∧ Queue_firstOrDefaultPred ([1, 2, 3] : List Nat) (fun _ => false) 7 = 7) :=
  ⟨claim_C3_orDefault.1 Nat 5,
   claim_C3_orDefault.2.2.2.2 Nat [1, 2, 3] (fun _ => false) 7 (fun x hx => rfl)⟩

/-- C4: `until` invokes the action on indices 0..n-1 in increasing order and
stops permanently at the first index whose action call returns exactly the
JavaScript value `false` (the visited trace is the full index-ordered list when
no call returns `false`, and the inclusive prefix up to the first `false`
otherwise); `fromLastUntil` visits n-1..0 under the same rule.  Returning
`undefined` (no return value) or the falsy number `0` does not stop the
iteration, as the concrete traces show. -/
theorem claim_C4_until :
    (∀ (α : Type) (arr : List α) (act : α → Nat → JsVal),
      ReadOnlyCollection_untilTrace arr act =
        (match List.findIdx? (fun p => decide (act p.1 p.2 = JsVal.vBool false))
            (withIndexFrom 0 arr) 0 with
         | none => withIndexFrom 0 arr
         | some k => (withIndexFrom 0 arr).take (k + 1)))
    ∧ (∀ (α : Type) (arr : List α) (act : α → Nat → JsVal),
      ReadOnlyCollection_fromLastUntilTrace arr act =
        (match List.findIdx? (fun p => decide (act p.1 p.2 = JsVal.vBool false))
            (withIndexFrom 0 arr).reverse 0 with
         | none => (withIndexFrom 0 arr).reverse
         | some k => (withIndexFrom 0 arr).reverse.take (k + 1)))
    ∧ (∀ (α : Type) (arr : List α),
        (withIndexFrom 0 arr).map Prod.snd = List.range arr.length
        ∧ (withIndexFrom 0 arr).reverse.map Prod.snd = (List.range arr.length).reverse)
    ∧ ReadOnlyCollection_untilTrace ([10, 20] : List Nat) (fun _ _ => JsVal.vNum 0)
        = [(10, 0), (20, 1)]
    ∧ ReadOnlyCollection_untilTrace ([10, 20] : List Nat) (fun _ _ => JsVal.undef)
        = [(10, 0), (20, 1)]
    ∧ ReadOnlyCollection_untilTrace ([10, 20, 30] : List Nat)
        (fun _ i => if i = 1 then JsVal.vBool false else JsVal.undef)
        = [(10, 0), (20, 1)]
    ∧ ReadOnlyCollection_fromLastUntilTrace ([10, 20, 30] : List Nat)
        (fun _ i => if i = 1 then JsVal.vBool false else JsVal.undef)
        = [(30, 2), (20, 1)] := by
  refine ⟨?_, ?_, ?_, by decide, by decide, by decide, by decide⟩
  · intro α arr act
    exact visitUntil_eq_take act _
  · intro α arr act
    exact visitUntil_eq_take act _
  · intro α arr
    constructor
    · rw [withIndexFrom_map_snd, List.range_eq_range']
    · rw [List.map_reverse, withIndexFrom_map_snd, List.range_eq_range']

/-- C5: every dictionary state reachable from the empty dictionary by `put`
and `remove` operations satisfies the parallel-lists invariant — the key list
and the value list have equal length, and no key occurs at two distinct
indices. -/
theorem claim_C5_invariant {κ ν : Type} [DecidableEq κ] (d : Dict κ ν)
    (h : DictReach d) : d.keys.length = d.values.length ∧ d.keys.Nodup := by
  induction h with
  | empty => exact ⟨rfl, List.nodup_nil⟩
  | put d k v hd ih =>
    obtain ⟨hlen, hnd⟩ := ih
    by_cases hidx : (-1 : Int) < jsIndexOf d.keys k
    · simp only [Dict_put, if_pos hidx]
      exact ⟨by simp [List.length_set, hlen], hnd⟩
    · simp only [Dict_put, if_neg hidx]
      have hnotin := jsIndexOf_not_found d.keys k hidx
      refine ⟨by simp [hlen], ?_⟩
      rw [List.nodup_append]
      refine ⟨hnd, List.nodup_singleton k, ?_⟩
      intro a ha hb
      simp only [List.mem_singleton] at hb
      subst hb
      exact hnotin ha
  | remove d k hd ih =>
    obtain ⟨hlen, hnd⟩ := ih
    by_cases hidx : (-1 : Int) < jsIndexOf d.keys k
    · obtain ⟨i, hfi, hval, hlt⟩ := jsIndexOf_pos_some d.keys k hidx
      have hltv : i < d.values.length := by omega
      have hrem : (Dict_remove d k).2 =
          { keys := d.keys.eraseIdx i, values := d.values.eraseIdx i } := by
        simp only [Dict_remove, hval, jsSpliceOne_inRange d.keys i hlt,
          jsSpliceOne_inRange d.values i hltv]
        rw [if_pos (show (-1 : Int) < (i : Int) by omega)]
      rw [hrem]
      constructor
      · simp only [List.length_eraseIdx_of_lt hlt, List.length_eraseIdx_of_lt hltv, hlen]
      · exact List.Nodup.sublist (List.eraseIdx_sublist d.keys i) hnd
    · simp only [Dict_remove, if_neg hidx]
      exact ⟨hlen, hnd⟩

/-- C5 witness: the invariant at a concrete reachable state (two `put`s from
the empty dictionary). -/
theorem claim_C5_witness :
    (Dict_put (Dict_put (Dict_empty : Dict Nat Nat) 1 10) 2 20).keys.length
        = (Dict_put (Dict_put (Dict_empty : Dict Nat Nat) 1 10) 2 20).values.length
    ∧ (Dict_put (Dict_put (Dict_empty : Dict Nat Nat) 1 10) 2 20).keys.Nodup :=
  claim_C5_invariant _ (DictReach.put _ 2 20 (DictReach.put _ 1 10 DictReach.empty))

/-- C6: `put(k, v)` with `k` already present (first occurrence at index `i`)
overwrites the value at `i` in place, leaving the key list — hence the length
and the key's insertion position — unchanged; with `k` absent it appends the
entry at the tail.  In particular, `put("a",1); put("b",2); put("a",3)` on an
empty dictionary gives length 2, `retrieve("a") = 3`, and `"a"` still before
`"b"` in `getKeys()`. -/
theorem claim_C6_put :
    (∀ (κ ν : Type) [inst : DecidableEq κ] (d : Dict κ ν) (k : κ) (v : ν) (i : Nat),
        List.findIdx? (fun y => decide (y = k)) d.keys 0 = some i →
        (Dict_put d k v).keys = d.keys
        ∧ (Dict_put d k v).values = d.values.set i v
        ∧ Dict_length (Dict_put d k v) = Dict_length d)
    ∧ (∀ (κ ν : Type) [inst : DecidableEq κ] (d : Dict κ ν) (k : κ) (v : ν),
        k ∉ d.keys →
        (Dict_put d k v).keys = d.keys ++ [k]
        ∧ (Dict_put d k v).values = d.values ++ [v])
    ∧ (Dict_length (Dict_put (Dict_put (Dict_put (Dict_empty : Dict String Int) "a" 1)
          "b" 2) "a" 3) = 2
       ∧ Dict_retrieve (Dict_put (Dict_put (Dict_put (Dict_empty : Dict String Int) "a" 1)
          "b" 2) "a" 3) "a" = some 3
       ∧ Dict_getKeys (Dict_put (Dict_put (Dict_put (Dict_empty : Dict String Int) "a" 1)
          "b" 2) "a" 3) = ["a", "b"]) := by
  refine ⟨?_, ?_, by decide, by decide, by decide⟩
  · intro κ ν inst d k v i hfi
    have hval := jsIndexOf_eq_some d.keys k i hfi
    have hpos : (-1 : Int) < jsIndexOf d.keys k := by rw [hval]; omega
    simp only [Dict_put, hval]
    rw [if_pos (show (-1 : Int) < (i : Int) by omega)]
    refine ⟨rfl, by simp, rfl⟩
  · intro κ ν inst d k v hk
    have hfi : List.findIdx? (fun y => decide (y = k)) d.keys 0 = none :=
      List.findIdx?_eq_none_iff.mpr (fun x hx => by
        simp only [decide_eq_false_iff_not]
        intro he
        exact hk (he ▸ hx))
    have hval := jsIndexOf_eq_none d.keys k hfi
    have hneg : ¬ (-1 : Int) < jsIndexOf d.keys k := by rw [hval]; omega
    simp [Dict_put, if_neg hneg]

/-- C6 witness: the present-key overwrite applied at a concrete dictionary. -/
theorem claim_C6_witness :
    (Dict_put (⟨[4], [5]⟩ : Dict Nat Nat) 4 9).keys = [4]
    ∧ (Dict_put (⟨[4], [5]⟩ : Dict Nat Nat) 4 9).values = ([5] : List Nat).set 0 9
    ∧ Dict_length (Dict_put (⟨[4], [5]⟩ : Dict Nat Nat) 4 9)
        = Dict_length (⟨[4], [5]⟩ : Dict Nat Nat) :=
  claim_C6_put.1 Nat Nat ⟨[4], [5]⟩ 4 9 0 (by decide)

/-- C7: on a non-empty queue, `dequeue()` removes and returns the head — the
element `first()` would have returned — shifting the remainder down; `enqueue`
appends at the tail; `dequeue()` on an empty queue returns the absent-value
sentinel and leaves the state untouched; and the concrete sequence
`enqueue(1); enqueue(2); dequeue()` returns 1 and leaves only 2. -/
theorem claim_C7_queue :
    (∀ (α : Type) (c : List α), c ≠ [] →
        (Queue_dequeue c).1 = Queue_first c ∧ (Queue_dequeue c).2 = c.tail)
    ∧ (∀ (α : Type) (c : List α) (x : α), Queue_enqueue c x = c ++ [x])
    ∧ Queue_dequeue ([] : List Nat) = (none, [])
    ∧ Queue_dequeue (Queue_enqueue (Queue_enqueue ([] : List Nat) 1) 2)
        = (some 1, [2]) := by
  refine ⟨?_, fun α c x => rfl, rfl, by decide⟩
  intro α c hc
  have hlen : 0 < c.length := List.length_pos.mpr hc
  have h0 : jsSpliceOne c (0 : Int) = (c.get? 0, c.eraseIdx 0) := by
    exact_mod_cast jsSpliceOne_inRange c 0 hlen
  simp only [Queue_dequeue, if_pos hlen, h0]
  constructor
  · rfl
  · cases c with
    | nil => exact absurd rfl hc
    | cons a t => rfl

/-- C7 witness: dequeue on the concrete non-empty queue `[1, 2]`. -/
theorem claim_C7_witness :
    (Queue_dequeue ([1, 2] : List Nat)).1 = Queue_first ([1, 2] : List Nat)
    ∧ (Queue_dequeue ([1, 2] : List Nat)).2 = ([1, 2] : List Nat).tail :=
  claim_C7_queue.1 Nat [1, 2] (by decide)

/-- C8 counterexample: on concrete out-of-range indices the positional
accessors complete normally and return the absent-value sentinel (or perform
the write) — no fault is raised, contradicting the claim that they propagate
a fault rather than silently returning a sentinel. -/
theorem claim_C8_cex :
    List_at ([] : List Nat) 0 = none
    ∧ List_removeAt ([] : List Nat) 0 = (none, [])
    ∧ jsArrayRead (jsArrayWrite ([] : List Nat) 2 7) 2 = some 7 := by
  decide

/-- C8 (amended): out-of-range positional access never raises: `at(i)` returns
the absent-value sentinel for any negative or past-the-end index; `removeAt(i)`
with `i ≥ length()` removes nothing, returning the sentinel and leaving the
list unchanged, while a negative `i` is normalized by `splice` to count from
the end (e.g. `removeAt(-1)` removes the last element); `put(i, v)` with
`i ≥ length()` extends the storage to length `i + 1`, the gap reading back as
the sentinel and index `i` reading back as `v`. -/
theorem claim_C8_noFault :
    (∀ (α : Type) (c : List α) (i : Int),
        (i < 0 ∨ (c.length : Int) ≤ i) → List_at c i = none)
    ∧ (∀ (α : Type) (c : List α) (i : Int),
        (c.length : Int) ≤ i → List_removeAt c i = (none, c))
    ∧ (∀ (α : Type) (c : List α) (i : Nat) (v : α), c.length ≤ i →
        jsArrayRead (jsArrayWrite c i v) i = some v
        ∧ (jsArrayWrite c i v).length = i + 1)
    ∧ List_removeAt ([1, 2, 3] : List Nat) (-1) = (some 3, [1, 2]) := by
  refine ⟨?_, ?_, ?_, by decide⟩
  · intro α c i hi
    unfold List_at jsIndex
    rcases hi with hi | hi
    · rw [if_neg (by omega)]
    · rw [if_pos (by omega)]
      exact List.get?_len_le (by omega)
  · intro α c i hi
    unfold List_removeAt
    exact jsSpliceOne_pastEnd c i hi
  · intro α c i v hi
    unfold jsArrayWrite
    rw [if_neg (by omega)]
    have hlen2 : (c.map some ++ List.replicate (i - c.length) (none : Option α)).length = i := by
      simp only [List.length_append, List.length_map, List.length_replicate]
      omega
    constructor
    · unfold jsArrayRead
      nth_rewrite 2 [← hlen2]
      rw [List.get?_concat_length]
      rfl
    · simp only [List.length_append, List.length_map, List.length_replicate,
        List.length_cons, List.length_nil]
      omega

/-- C8 witness: the no-fault accessors evaluated at concrete out-of-range
indices. -/
theorem claim_C8_witness :
    List_at ([5] : List Nat) (-2) = none
    ∧ List_at ([5] : List Nat) 3 = none
    ∧ List_removeAt ([5] : List Nat) 3 = (none, [5])
    ∧ (jsArrayRead (jsArrayWrite ([5] : List Nat) 4 9) 4 = some 9
       ∧ (jsArrayWrite ([5] : List Nat) 4 9).length = 4 + 1) :=
  ⟨claim_C8_noFault.1 Nat [5] (-2) (Or.inl (by decide)),
   claim_C8_noFault.1 Nat [5] 3 (Or.inr (by decide)),
   claim_C8_noFault.2.1 Nat [5] 3 (by decide),
   claim_C8_noFault.2.2.1 Nat [5] 4 9 (by decide)⟩

/-- C9: `toArray()` on a `List` or `Queue` returns the reference to the live
backing array itself (and `ReadOnlyCollection.toArray` the wrapped array
reference), not a copy: a later `add`/`enqueue` on the container is visible
through the returned array (its length grows by one and its last element is
the new item), and an indexed write through the returned array changes what
the container's `at` observes. -/
theorem claim_C9_toArray_alias {α : Type} (h : Heap α) (l : ListObj) (x : α)
    (i : Nat) (y : α) (hr : l.container < h.length)
    (hi : i < (heapRead h l.container).length) :
    List_toArray l = l.container
    ∧ heapRead (List_add_heap h l x) (List_toArray l) = heapRead h l.container ++ [x]
    ∧ (heapRead (List_add_heap h l x) (List_toArray l)).length
        = (heapRead h l.container).length + 1
    ∧ List_at_heap (arraySet_heap h (List_toArray l) i y) l i = some y
    ∧ Queue_toArray l = l.container
    ∧ heapRead (Queue_enqueue_heap h l x) (Queue_toArray l)
        = heapRead h l.container ++ [x]
    ∧ ReadOnlyCollection_toArray l.container = l.container := by
  have hrw : ∀ (a : List α), heapRead (heapWrite h l.container a) l.container = a := by
    intro a
    unfold heapRead heapWrite
    rw [List.get?_set_eq_of_lt a hr]
    rfl
  have hadd : heapRead (List_add_heap h l x) (List_toArray l)
      = heapRead h l.container ++ [x] := hrw _
  have hq : heapRead (Queue_enqueue_heap h l x) (Queue_toArray l)
      = heapRead h l.container ++ [x] := hrw _
  refine ⟨rfl, hadd, ?_, ?_, rfl, hq, rfl⟩
  · rw [hadd]
    simp
  · unfold List_at_heap arraySet_heap List_toArray
    rw [hrw]
    exact List.get?_set_eq_of_lt y hi

/-- C9 witness: the aliasing behaviour on a one-array heap holding `[1, 2]`. -/
theorem claim_C9_witness :
    List_toArray ⟨0⟩ = (⟨0⟩ : ListObj).container
    ∧ heapRead (List_add_heap ([[1, 2]] : Heap Nat) ⟨0⟩ 9) (List_toArray ⟨0⟩)
        = heapRead ([[1, 2]] : Heap Nat) (⟨0⟩ : ListObj).container ++ [9]
    ∧ (heapRead (List_add_heap ([[1, 2]] : Heap Nat) ⟨0⟩ 9) (List_toArray ⟨0⟩)).length
        = (heapRead ([[1, 2]] : Heap Nat) (⟨0⟩ : ListObj).container).length + 1
    ∧ List_at_heap (arraySet_heap ([[1, 2]] : Heap Nat) (List_toArray ⟨0⟩) 0 7) ⟨0⟩ 0
        = some 7
    ∧ Queue_toArray ⟨0⟩ = (⟨0⟩ : ListObj).container
    ∧ heapRead (Queue_enqueue_heap ([[1, 2]] : Heap Nat) ⟨0⟩ 9) (Queue_toArray ⟨0⟩)
        = heapRead ([[1, 2]] : Heap Nat) (⟨0⟩ : ListObj).container ++ [9]
    ∧ ReadOnlyCollection_toArray (⟨0⟩ : ListObj).container = (⟨0⟩ : ListObj).container :=
  claim_C9_toArray_alias ([[1, 2]] : Heap Nat) ⟨0⟩ 9 0 7 (by decide) (by decide)

/-- C10: a single `removeHandler(h)` removes every registration of `h` (the
underlying `removeAll` loops until no occurrence remains), so a subsequent
`invoke` calls `h` zero times while every other handler is still called once
per remaining registration, in registration order: the invocation trace is
exactly the original registration list with all occurrences of `h` filtered
out. -/
theorem claim_C10_removeHandler {η : Type} [DecidableEq η] (l : List η) (h g : η)
    (hg : g ≠ h) :
    Event_invokeTrace (Event_removeHandler l h) = l.filter (fun y => decide (y ≠ h))
    ∧ h ∉ Event_invokeTrace (Event_removeHandler l h)
    ∧ (Event_invokeTrace (Event_removeHandler l h)).count g = l.count g := by
  have htrace : ∀ (m : List η), Event_invokeTrace m = m := by
    intro m
    unfold Event_invokeTrace ReadOnlyCollection_eachTrace
    exact withIndexFrom_map_fst m 0
  have hrem : Event_removeHandler l h = l.filter (fun y => decide (y ≠ h)) := by
    unfold Event_removeHandler
    exact jsRemoveAll_eq_filter h l
  rw [htrace, hrem]
  refine ⟨rfl, ?_, ?_⟩
  · intro hmem
    rw [List.mem_filter] at hmem
    simp at hmem
  · exact List.count_filter (by simp [hg])

/-- C10 witness: registering `0` twice and `1` once, then removing `0`,
leaves an invocation trace that calls `0` zero times and `1` once. -/
theorem claim_C10_witness :
    Event_invokeTrace (Event_removeHandler ([0, 1, 0] : List Nat) 0)
        = ([0, 1, 0] : List Nat).filter (fun y => decide (y ≠ 0))
    ∧ (0 : Nat) ∉ Event_invokeTrace (Event_removeHandler ([0, 1, 0] : List Nat) 0)
    ∧ (Event_invokeTrace (Event_removeHandler ([0, 1, 0] : List Nat) 0)).count 1
        = ([0, 1, 0] : List Nat).count 1 :=
  claim_C10_removeHandler [0, 1, 0] 0 1 (by decide)
